import Mathlib

/-!
Verification of the numerical core of `src/utils.rs` (gauzilla):
the incremental moving average `IncrementalMA`, the half-precision packing
function `pack_half_2x16`, and the tolerance comparisons `is_float_zero` /
`are_floats_equal`.

Modelling conventions:
* `f64` samples and `f32` comparison operands are modelled by exact rational
  arithmetic (`ℚ`); division by zero follows Lean's `0` convention, which is
  never hit on the paths the code divides on (the code guards emptiness).
* Rust's `VecDeque<f64>` is modelled as a `List ℚ` with its front at the head,
  together with the deque's capacity.  `VecDeque::with_capacity n` yields a
  deque whose `capacity()` is exactly `n` (Rust ≥ 1.67 semantics) and the
  capacity never changes here, because `add` pops before it pushes, so
  `push_back` never reallocates.
* A Rust panic (`Option::unwrap` on `None`, as in `self.v.pop_front().unwrap()`)
  is modelled by returning `none`.
* For the bit-level packing function, `f32` values are modelled by their IEEE
  754 bit patterns as natural numbers below `2 ^ 32`.
-/

/-- State of the Rust struct `IncrementalMA { v: VecDeque<f64>, sum: f64 }`,
together with the fixed capacity of the deque (`v.capacity()`). -/
structure IncrementalMA where
  capacity : Nat
  v : List ℚ
  sum : ℚ
  deriving DecidableEq

/-- `IncrementalMA::new(window_size)`: an empty deque allocated with capacity
`window_size`, and `sum = 0`. -/
def IncrementalMA.new (window_size : Nat) : IncrementalMA :=
  ⟨window_size, [], 0⟩

/-- `IncrementalMA::add(value)`.  When `v.len() == v.capacity()` the front is
popped (`pop_front().unwrap()` — a panic, modelled as `none`, when the deque is
empty, i.e. when the capacity is `0`) and subtracted from `sum`; then `value`
is pushed back and added to `sum`; the call returns the updated state and
`sum / v.len()`. -/
def IncrementalMA.add (s : IncrementalMA) (value : ℚ) : Option (IncrementalMA × ℚ) :=
  if s.v.length = s.capacity then
    match s.v with
    | [] => none
    | front :: rest =>
      let v' := rest ++ [value]
      let sum' := s.sum - front + value
      some (⟨s.capacity, v', sum'⟩, sum' / (v'.length : ℚ))
  else
    let v' := s.v ++ [value]
    let sum' := s.sum + value
    some (⟨s.capacity, v', sum'⟩, sum' / (v'.length : ℚ))

/-- `IncrementalMA::calc()`: `0` on an empty deque, else `sum / v.len()`.
(The source method is named `calc`, a reserved word in Lean, hence the tick.) -/
def IncrementalMA.calc' (s : IncrementalMA) : ℚ :=
  if s.v.isEmpty then 0 else s.sum / (s.v.length : ℚ)

/-- Iterated `add`, propagating a panic (`none`) and discarding the returned
means. -/
def IncrementalMA.addList (s : IncrementalMA) : List ℚ → Option IncrementalMA
  | [] => some s
  | x :: xs =>
    match s.add x with
    | none => none
    | some (s', _) => s'.addList xs

/-- Conversion of an `f32` bit pattern to an `f16` bit pattern, rounding to
nearest even.  Modelled from the `half` crate's `f16::from_f32` software
conversion (`f32_to_f16_fallback`), the external dependency used by
`pack_half_2x16`; the final `% 65536` is the `as u16` cast applied at every
return of the Rust function (no branch exceeds `2 ^ 16` before the cast). -/
def f16_from_f32_bits (x : Nat) : Nat :=
  (let sign := x &&& 0x80000000
   let exp := x &&& 0x7F800000
   let man := x &&& 0x007FFFFF
   if exp = 0x7F800000 then
     -- Infinity or NaN: keep the shifted mantissa bits, set the NaN bit.
     let nanBit : Nat := if man = 0 then 0 else 0x0200
     (sign >>> 16) ||| 0x7C00 ||| nanBit ||| (man >>> 13)
   else
     let halfSign := sign >>> 16
     let unbiasedExp : Int := (Int.ofNat (exp >>> 23)) - 127
     let halfExp : Int := unbiasedExp + 15
     if 0x1F ≤ halfExp then
       -- Exponent overflow: signed infinity.
       halfSign ||| 0x7C00
     else if halfExp ≤ 0 then
       if 24 < 14 - halfExp then
         -- Full underflow: signed zero.
         halfSign
       else
         -- Subnormal half: shift the mantissa (with its hidden bit), round,
         -- and recombine with the sign bit.
         let man' := man ||| 0x00800000
         let halfMan := man' >>> (14 - halfExp).toNat
         let roundBit := 1 <<< (13 - halfExp).toNat
         if man' &&& roundBit ≠ 0 ∧ man' &&& (3 * roundBit - 1) ≠ 0 then
           halfSign ||| (halfMan + 1)
         else
           halfSign ||| halfMan
     else
       -- Normalized half: rebias, truncate mantissa, round to nearest even.
       let halfExpBits := halfExp.toNat <<< 10
       let halfMan := man >>> 13
       let roundBit : Nat := 0x00001000
       if man &&& roundBit ≠ 0 ∧ man &&& (3 * roundBit - 1) ≠ 0 then
         (halfSign ||| halfExpBits ||| halfMan) + 1
       else
         halfSign ||| halfExpBits ||| halfMan) % 65536

/-- `pack_half_2x16(x, y)` over IEEE bit patterns: convert each operand to
half precision and combine `x`'s bits with `y`'s bits shifted into the high
half, via bitwise or. -/
def pack_half_2x16 (x y : Nat) : Nat :=
  f16_from_f32_bits x ||| (f16_from_f32_bits y <<< 16)

/-- `is_float_zero(x, threshold)`: `x.abs() < threshold`, in the exact
rational model of `f32`. -/
def is_float_zero (x threshold : ℚ) : Bool :=
  |x| < threshold

/-- `are_floats_equal(x, y, threshold)`: `is_float_zero(x - y, threshold)`. -/
def are_floats_equal (x y threshold : ℚ) : Bool :=
  is_float_zero (x - y) threshold

lemma f16_lt (x : Nat) : f16_from_f32_bits x < 65536 :=
  Nat.mod_lt _ (by norm_num)

lemma lor_shiftLeft_sixteen (a b : Nat) (ha : a < 65536) :
    a ||| (b <<< 16) = 65536 * b + a := by
  have h65536 : (65536 : Nat) = 2 ^ 16 := by norm_num
  apply Nat.eq_of_testBit_eq
  intro j
  rw [Nat.testBit_lor, Nat.testBit_shiftLeft]
  rw [h65536] at ha ⊢
  rw [Nat.testBit_mul_pow_two_add b ha j]
  by_cases h : j < 16
  · have h16 : ¬ (j ≥ 16) := by omega
    simp [h, h16]
  · have hj : 16 ≤ j := by omega
    have hfa : a.testBit j = false :=
      Nat.testBit_eq_false_of_lt (lt_of_lt_of_le ha (Nat.pow_le_pow_right (by norm_num) hj))
    simp [h, hj, hfa]

lemma pack_eq_add (x y : Nat) :
    pack_half_2x16 x y = 65536 * f16_from_f32_bits y + f16_from_f32_bits x :=
  lor_shiftLeft_sixteen _ _ (f16_lt x)

lemma add_full (c : Nat) (front : ℚ) (rest : List ℚ) (sm : ℚ) (x : ℚ)
    (h : (front :: rest).length = c) :
    IncrementalMA.add ⟨c, front :: rest, sm⟩ x =
      some (⟨c, rest ++ [x], sm - front + x⟩,
        (sm - front + x) / (((rest ++ [x]).length : Nat) : ℚ)) := by
  unfold IncrementalMA.add
  simp [h]

lemma add_room (c : Nat) (v : List ℚ) (sm : ℚ) (x : ℚ) (h : ¬ v.length = c) :
    IncrementalMA.add ⟨c, v, sm⟩ x =
      some (⟨c, v ++ [x], sm + x⟩, (sm + x) / (((v ++ [x]).length : Nat) : ℚ)) := by
  unfold IncrementalMA.add
  simp [h]

lemma add_run (s : IncrementalMA) (x : ℚ) (hc : 1 ≤ s.capacity)
    (hlen : s.v.length ≤ s.capacity) (hsum : s.sum = s.v.sum) :
    s.add x = some (⟨s.capacity, (s.v ++ [x]).drop (s.v.length + 1 - s.capacity),
        ((s.v ++ [x]).drop (s.v.length + 1 - s.capacity)).sum⟩,
      ((s.v ++ [x]).drop (s.v.length + 1 - s.capacity)).sum /
        ((((s.v ++ [x]).drop (s.v.length + 1 - s.capacity)).length : Nat) : ℚ)) := by
  obtain ⟨c, v, sm⟩ := s
  simp only at hc hlen hsum ⊢
  subst hsum
  by_cases h : v.length = c
  · cases v with
    | nil => simp at h; omega
    | cons front rest =>
      rw [add_full c front rest _ x h]
      have h1 : (front :: rest).length + 1 - c = 1 := by omega
      have h2 : ((front :: rest) ++ [x]).drop 1 = rest ++ [x] := by
        simp
      have h3 : (front :: rest).sum - front + x = (rest ++ [x]).sum := by
        simp [List.sum_cons, List.sum_append]
      rw [h1, h2, h3]
  · rw [add_room c v _ x h]
    have h1 : v.length + 1 - c = 0 := by omega
    rw [h1, List.drop_zero]
    have h2 : v.sum + x = (v ++ [x]).sum := by
      simp [List.sum_append]
    rw [h2]

lemma addList_run (l : List ℚ) : ∀ (s : IncrementalMA), 1 ≤ s.capacity →
    s.v.length ≤ s.capacity → s.sum = s.v.sum →
    s.addList l = some ⟨s.capacity, (s.v ++ l).drop (s.v.length + l.length - s.capacity),
      ((s.v ++ l).drop (s.v.length + l.length - s.capacity)).sum⟩ := by
  induction l with
  | nil =>
    intro s hc hlen hsum
    obtain ⟨c, v, sm⟩ := s
    simp only at hc hlen hsum ⊢
    subst hsum
    have h0 : v.length - c = 0 := by omega
    simp [IncrementalMA.addList, h0]
  | cons x xs ih =>
    intro s hc hlen hsum
    rw [IncrementalMA.addList, add_run s x hc hlen hsum]
    simp only
    set w1 := (s.v ++ [x]).drop (s.v.length + 1 - s.capacity) with hw1
    have hlen1 : w1.length ≤ s.capacity := by
      rw [hw1]
      simp [List.length_drop]
      omega
    have hrec := ih ⟨s.capacity, w1, w1.sum⟩ hc hlen1 rfl
    simp only at hrec
    rw [hrec]
    have hd1 : s.v.length + 1 - s.capacity ≤ (s.v ++ [x]).length := by
      simp
    have hkey : (w1 ++ xs).drop (w1.length + xs.length - s.capacity) =
        (s.v ++ x :: xs).drop (s.v.length + (x :: xs).length - s.capacity) := by
      have e1 : w1 ++ xs = ((s.v ++ [x]) ++ xs).drop (s.v.length + 1 - s.capacity) := by
        rw [hw1, List.drop_append_of_le_length hd1]
      rw [e1, List.drop_drop]
      have e2 : (s.v ++ [x]) ++ xs = s.v ++ x :: xs := (List.append_cons s.v x xs).symm
      rw [e2]
      congr 1
      have hw1len : w1.length = s.v.length + 1 - (s.v.length + 1 - s.capacity) := by
        rw [hw1]; simp [List.length_drop]
      rw [hw1len]
      simp only [List.length_cons]
      omega
    rw [hkey]

/-- Claim C1: for every capacity `c ≥ 1` and every sample sequence `l` fed
through `add` into a tracker created by `new c`, `calc` afterwards equals the
arithmetic mean of the last `min l.length c` samples (`l.drop (l.length - c)`
is exactly that suffix); the equality is exact in the rational model, hence
within any floating-point tolerance. -/
theorem calc_mean_of_last_window (c : Nat) (l : List ℚ) (hc : 1 ≤ c) :
    ∃ s', (IncrementalMA.new c).addList l = some s' ∧
      s'.calc' = (l.drop (l.length - c)).sum / ((min l.length c : Nat) : ℚ) := by
  have h := addList_run l (IncrementalMA.new c) hc (by simp [IncrementalMA.new])
    (by simp [IncrementalMA.new])
  simp only [IncrementalMA.new, List.nil_append, List.length_nil, Nat.zero_add] at h
  refine ⟨_, h, ?_⟩
  by_cases hl : l = []
  · subst hl
    simp [IncrementalMA.calc']
  · have hpos : 0 < l.length := List.length_pos.mpr hl
    have hne : l.drop (l.length - c) ≠ [] := by
      rw [ne_eq, List.drop_eq_nil_iff]
      omega
    unfold IncrementalMA.calc'
    rw [if_neg (by rw [List.isEmpty_iff]; exact hne)]
    have hlen2 : (l.drop (l.length - c)).length = min l.length c := by
      rw [List.length_drop]; omega
    rw [hlen2]

/-- Claim C3: for every tracker created by `new c` and every sequence of `add`
calls that completes, the number of retained samples never exceeds the
requested capacity `c` (every prefix of a sequence is itself a sequence, so
this covers all intermediate states as well). -/
theorem window_never_exceeds_capacity (c : Nat) (l : List ℚ) (s' : IncrementalMA)
    (h : (IncrementalMA.new c).addList l = some s') : s'.v.length ≤ c := by
  by_cases hc : 1 ≤ c
  · rw [addList_run l (IncrementalMA.new c) hc (by simp [IncrementalMA.new])
      (by simp [IncrementalMA.new])] at h
    simp only [IncrementalMA.new, List.nil_append, List.length_nil, Nat.zero_add] at h
    simp only [Option.some.injEq] at h
    rw [← h]
    simp only [List.length_drop]
    omega
  · have hc0 : c = 0 := by omega
    subst hc0
    cases l with
    | nil =>
      simp only [IncrementalMA.addList, Option.some.injEq] at h
      rw [← h]
      simp [IncrementalMA.new]
    | cons x xs =>
      exfalso
      rw [IncrementalMA.addList] at h
      have hnone : (IncrementalMA.new 0).add x = none := rfl
      rw [hnone] at h
      simp at h

/-- Claim C4: eviction is strictly FIFO.  Observing `c + 1` samples into a
capacity-`c` tracker yields the mean of samples `2 .. c + 1` (the tail of the
sequence: the first sample is fully evicted); concretely, with capacity `3`,
after observing `10, 20, 30, 40` the mean is `30`. -/
theorem fifo_eviction :
    (∀ (c : Nat) (l : List ℚ), 1 ≤ c → l.length = c + 1 →
      ∃ s', (IncrementalMA.new c).addList l = some s' ∧ s'.calc' = l.tail.sum / (c : ℚ)) ∧
    ∃ s', (IncrementalMA.new 3).addList [10, 20, 30, 40] = some s' ∧ s'.calc' = 30 := by
  constructor
  · intro c l hc hlen
    have h := addList_run l (IncrementalMA.new c) hc (by simp [IncrementalMA.new])
      (by simp [IncrementalMA.new])
    simp only [IncrementalMA.new, List.nil_append, List.length_nil, Nat.zero_add] at h
    refine ⟨_, h, ?_⟩
    have hd : l.length - c = 1 := by omega
    rw [hd, List.drop_one]
    have htl : l.tail.length = c := by
      rw [List.length_tail]; omega
    have hne : l.tail ≠ [] := by
      intro he
      rw [he] at htl
      simp at htl
      omega
    unfold IncrementalMA.calc'
    rw [if_neg (by rw [List.isEmpty_iff]; exact hne)]
    rw [htl]
  · refine ⟨⟨3, [20, 30, 40], 90⟩, ?_, ?_⟩
    · simp [IncrementalMA.addList, IncrementalMA.add, IncrementalMA.new]
      norm_num
    · simp [IncrementalMA.calc']
      norm_num

/-- Claim C5: `running_sum` equals the sum of the elements currently in the
window (in the model's exact arithmetic): it holds after construction and is
preserved by every successful `add` call. -/
theorem running_sum_invariant :
    (∀ c : Nat, (IncrementalMA.new c).sum = ((IncrementalMA.new c).v).sum) ∧
    (∀ (s : IncrementalMA) (x : ℚ) (s' : IncrementalMA) (m : ℚ),
      s.sum = s.v.sum → s.add x = some (s', m) → s'.sum = s'.v.sum) := by
  constructor
  · intro c; rfl
  · intro s x s' m hsum hadd
    obtain ⟨c, v, sm⟩ := s
    simp only at hsum
    by_cases h : v.length = c
    · cases v with
      | nil =>
        have hnone : IncrementalMA.add ⟨c, [], sm⟩ x = none := by
          unfold IncrementalMA.add
          rw [if_pos h]
        rw [hnone] at hadd
        simp at hadd
      | cons front rest =>
        rw [add_full c front rest sm x h] at hadd
        simp only [Option.some.injEq, Prod.mk.injEq] at hadd
        obtain ⟨h1, h2⟩ := hadd
        subst h1
        simp only
        rw [hsum]
        simp [List.sum_cons, List.sum_append]
    · rw [add_room c v sm x h] at hadd
      simp only [Option.some.injEq, Prod.mk.injEq] at hadd
      obtain ⟨h1, h2⟩ := hadd
      subst h1
      simp only
      rw [hsum]
      simp [List.sum_append]

/-- Witness for C5: one concrete `add` step preserving the sum invariant. -/
theorem running_sum_invariant_witness :
    (⟨2, [1, 2], 3⟩ : IncrementalMA).sum = ((⟨2, [1, 2], 3⟩ : IncrementalMA).v).sum :=
  running_sum_invariant.2 ⟨2, [1], 1⟩ 2 ⟨2, [1, 2], 3⟩ (3 / 2) (by simp)
    (by norm_num [IncrementalMA.add])

/-- Claim C8: a freshly constructed tracker's `calc` returns exactly `0` (the
defined zero-sample policy for an empty window); `calc` is modelled as a pure
function of the state, so it cannot mutate the tracker. -/
theorem calc_fresh_zero : ∀ c : Nat, (IncrementalMA.new c).calc' = 0 :=
  fun _ => rfl

/-- Claim C9: on a tracker built with `new 0`, the first `add` panics (the
eviction branch is taken with an empty deque and `pop_front().unwrap()` fails,
modelled as `none`), while for every window size `≥ 1` no sequence of `add`
calls can reach the panic. -/
theorem add_unwrap_panic_iff_zero_window :
    (∀ x : ℚ, (IncrementalMA.new 0).add x = none) ∧
    (∀ (c : Nat) (l : List ℚ), 1 ≤ c → (IncrementalMA.new c).addList l ≠ none) := by
  constructor
  · intro x; rfl
  · intro c l hc
    rw [addList_run l (IncrementalMA.new c) hc (by simp [IncrementalMA.new])
      (by simp [IncrementalMA.new])]
    simp

/-- Claim C2, counterexample: `new 0` is not rejected — it returns a tracker
(the empty tracker of capacity `0`), and that tracker exhibits the degenerate
runtime behavior later: its first `add` panics (`none`). -/
theorem new_zero_counterexample :
    IncrementalMA.new 0 = ⟨0, [], 0⟩ ∧ (IncrementalMA.new 0).add 1 = none :=
  ⟨rfl, rfl⟩

/-- Claim C2, amended: construction with capacity `0` is not rejected; `new 0`
succeeds with an empty window and zero sum, and the degenerate behavior
surfaces only at runtime, where every first `add` call panics. -/
theorem new_zero_unguarded :
    (IncrementalMA.new 0).v = [] ∧ (IncrementalMA.new 0).sum = 0 ∧
    ∀ x : ℚ, (IncrementalMA.new 0).add x = none :=
  ⟨rfl, rfl, fun _ => rfl⟩

/-- Claim C6: `pack_half_2x16` converts each input independently to binary16
and places `x`'s 16 bits in the low half and `y`'s 16 bits in the high half of
the returned word; in particular on the bit patterns of `1.0f32`
(`0x3F800000`) and `-1.0f32` (`0xBF800000`) it returns `0xBC003C00`
(low half `0x3C00`, high half `0xBC00`).  The last conjunct exercises the
subnormal-result branch of the conversion: `-2 ^ (-15) : f32` (`0xB8000000`)
converts to the negative subnormal half `0x8200`, keeping its sign bit. -/
theorem pack_half_2x16_spec :
    (∀ x y : Nat, pack_half_2x16 x y % 65536 = f16_from_f32_bits x ∧
      pack_half_2x16 x y / 65536 = f16_from_f32_bits y) ∧
    pack_half_2x16 0x3F800000 0xBF800000 = 0xBC003C00 ∧
    f16_from_f32_bits 0xB8000000 = 0x8200 := by
  refine ⟨?_, by decide, by decide⟩
  intro x y
  have h := pack_eq_add x y
  have hx := f16_lt x
  constructor
  · rw [h]; omega
  · rw [h]; omega

/-- Claim C7: for every value `a` and threshold `t > 0`,
`are_floats_equal a a t` is true and `are_floats_equal a (a + 2 * t) t` is
false (exact-arithmetic model of `f32`). -/
theorem are_floats_equal_tolerance (a t : ℚ) (ht : 0 < t) :
    are_floats_equal a a t = true ∧ are_floats_equal a (a + 2 * t) t = false := by
  unfold are_floats_equal is_float_zero
  constructor
  · simp only [sub_self, abs_zero, decide_eq_true_eq]
    exact ht
  · simp only [decide_eq_false_iff_not, not_lt]
    have he : a - (a + 2 * t) = -(2 * t) := by ring
    rw [he, abs_neg, abs_of_pos (by linarith : (0:ℚ) < 2 * t)]
    linarith

/-- Witness for C7 at `a = 0`, `t = 1`. -/
theorem are_floats_equal_tolerance_witness :
    are_floats_equal 0 0 1 = true ∧ are_floats_equal 0 (0 + 2 * 1) 1 = false :=
  are_floats_equal_tolerance 0 1 (by norm_num)

/-- Claim C10: `are_floats_equal` is symmetric in its first two arguments, for
every threshold. -/
theorem are_floats_equal_symm (x y t : ℚ) :
    are_floats_equal x y t = are_floats_equal y x t := by
  unfold are_floats_equal is_float_zero
  rw [abs_sub_comm]

/-- Witness for C1 at capacity `2` and samples `1, 2, 3`. -/
theorem calc_mean_of_last_window_witness :
    ∃ s', (IncrementalMA.new 2).addList [1, 2, 3] = some s' ∧
      s'.calc' = (([1, 2, 3] : List ℚ).drop (([1, 2, 3] : List ℚ).length - 2)).sum /
        ((min ([1, 2, 3] : List ℚ).length 2 : Nat) : ℚ) :=
  calc_mean_of_last_window 2 [1, 2, 3] (by decide)

/-- Witness for C3 at capacity `1` and a single sample. -/
theorem window_never_exceeds_capacity_witness :
    ((⟨1, [7], 7⟩ : IncrementalMA)).v.length ≤ 1 :=
  window_never_exceeds_capacity 1 [7] ⟨1, [7], 7⟩
    (by norm_num [IncrementalMA.addList, IncrementalMA.add, IncrementalMA.new])

/-- Witness for C4 at capacity `3` and samples `10, 20, 30, 40`. -/
theorem fifo_eviction_witness :
    ∃ s', (IncrementalMA.new 3).addList [10, 20, 30, 40] = some s' ∧
      s'.calc' = ([10, 20, 30, 40] : List ℚ).tail.sum / ((3 : Nat) : ℚ) :=
  fifo_eviction.1 3 [10, 20, 30, 40] (by decide) (by decide)

/-- Witness for C9: with window size `1`, adding one sample does not panic. -/
theorem add_unwrap_panic_iff_zero_window_witness :
    (IncrementalMA.new 1).addList [5] ≠ none :=
  add_unwrap_panic_iff_zero_window.2 1 [5] (by decide)
